import Mathlib

/-
Verification of the singly-linked list implementation in `src/main.rs`
(crate `rust_linked_list`).

The Rust code stores nodes as `Rc<RefCell<Node<T>>>`, so the same node can be
aliased by the list's `head`, its `tail`, a predecessor's `next` field and a
live iterator, and a mutation through one alias is visible through all of
them.  We model this with an explicit heap: a `Heap T` is a list of nodes,
a `Link` (Rust's `Option<Rc<RefCell<Node<T>>>>`) is an `Option Nat` holding
the address (index) of a node, and every operation threads the heap
explicitly.  Allocation (`Node::new` via `Rc::new`) appends at the end of the
heap, so a fresh node gets address `h.length`.

Rust's `&str` error messages ("n over list length", "nth over list length")
are both represented by the single constructor `Err.indexOutOfRange`; a Rust
panic (an `unwrap()` of `None`, or the debug-mode arithmetic-overflow check on
`n - 1` for unsigned `n = 0` in `split_on_nth`) is represented by the
`Res.panicked` constructor, which is a fatal abort, not a value returned to
the caller.
-/

set_option autoImplicit false

namespace RustList

universe u

/-- A node of the list: `struct Node<T> { value: T, next: Link<T> }`, where
the `next` link is modelled as an optional heap address. -/
structure Node (T : Type u) where
  value : T
  next : Option Nat
  deriving Repr, DecidableEq

/-- The heap of reference-counted cells: address `a` denotes `h[a]`. -/
abbrev Heap (T : Type u) := List (Node T)

/-- The list header: `struct LinkedList<T> { head: Link<T>, tail: Link<T> }`.
Links are heap addresses, so the header itself is type-independent. -/
structure LinkedList where
  head : Option Nat
  tail : Option Nat
  deriving Repr, DecidableEq

/-- The single error kind of the Rust code: both `&str` messages
("n over list length" and "nth over list length") report an index that is
not addressable in the current list. -/
inductive Err where
  | indexOutOfRange
  deriving Repr, DecidableEq

/-- A fatal abort, as opposed to a returned `Result::Err`. -/
inductive Fault where
  /-- Debug-build arithmetic overflow check firing, e.g. on `0usize - 1`. -/
  | subOverflow
  /-- `Option::unwrap` called on `None`. -/
  | unwrapNone
  deriving Repr, DecidableEq

/-- Outcome of a fallible Rust call: a returned `Ok`, a returned `Err`,
or a panic (which never returns to the caller). -/
inductive Res (α : Type u) where
  | ok : α → Res α
  | err : Err → Res α
  | panicked : Fault → Res α
  deriving Repr, DecidableEq

variable {T : Type u}

/-- Reading `node.borrow().next` at address `a` (dangling addresses give
`none`; well-formed states never contain them). -/
def nodeNext (h : Heap T) (a : Nat) : Option Nat :=
  match h[a]? with
  | some nd => nd.next
  | none => none

/-- Writing `node.borrow_mut().next = nx` at address `a`. -/
def setNext (h : Heap T) (a : Nat) (nx : Option Nat) : Heap T :=
  match h[a]? with
  | some nd => h.set a { nd with next := nx }
  | none => h

/-- Writing `node.borrow_mut().value = v` at address `a`. -/
def setValue (h : Heap T) (a : Nat) (v : T) : Heap T :=
  match h[a]? with
  | some nd => h.set a { nd with value := v }
  | none => h

/-- `Node::new(value, next)`: `Rc::new(RefCell::new(Node { value, next }))`.
Returns the extended heap and the fresh address. -/
def Node.new (h : Heap T) (value : T) (next : Option Nat) : Heap T × Nat :=
  (h ++ [⟨value, next⟩], h.length)

/-- `LinkedList::new()`: `head = tail = None`. -/
def LinkedList.new : LinkedList := ⟨none, none⟩

/-- One step of `LinkedListNodeIter::next`, iterated: the item yielded by
`self.iter().nth(n)`.  The iterator holds `current`; on `Some(node)` it
advances `current` to `node.borrow().next` and yields `Some(node)` (an item
of type `Link<T>`), on `None` it is exhausted.  So `iterNthItem h cur n` is
`some item` when the iterator starting at `cur` yields an `n`-th item, and
`none` when it is exhausted before that. -/
def iterNthItem (h : Heap T) : Option Nat → Nat → Option (Option Nat)
  | none, _ => none
  | some a, 0 => some (some a)
  | some a, n + 1 => iterNthItem h (nodeNext h a) n

/-- The whole sequence of items yielded by the iterator starting at `cur`,
with explicit fuel (the Rust iterator would diverge on a cyclic heap; on the
acyclic heaps reachable in the program, any fuel at least the chain length
gives the full sequence). -/
def iterFrom (h : Heap T) : Option Nat → Nat → List (Option Nat)
  | none, _ => []
  | some _, 0 => []
  | some a, fuel + 1 => some a :: iterFrom h (nodeNext h a) fuel

/-- Dereference an item yielded by the iterator down to the stored value:
`item.unwrap().borrow().value`, as an `Option`. -/
def linkValue (h : Heap T) (link : Option Nat) : Option T :=
  link.bind fun a => (h[a]?).map (·.value)

/-- The values seen by a full head-to-tail iteration of list `l`
(e.g. by the `Display` implementation): heap size is always enough fuel. -/
def iterValues (h : Heap T) (l : LinkedList) : List (Option T) :=
  (iterFrom h l.head h.length).map (linkValue h)

/-- `push_back(&mut self, value)`: allocate `Node::new(value, None)`; if
`self.tail.take()` is `None` the new node becomes both head and tail, else
the old tail's `next` is set to the new node and `tail` is updated. -/
def push_back (h : Heap T) (l : LinkedList) (value : T) : Heap T × LinkedList :=
  let alloc := Node.new h value none
  match l.tail with
  | none => (alloc.1, ⟨some alloc.2, some alloc.2⟩)
  | some node => (setNext alloc.1 node (some alloc.2), ⟨l.head, some alloc.2⟩)

/-- `push_front(&mut self, value)`: allocate `Node::new(value, None)`; if
`self.head.take()` is `None` the new node becomes both head and tail, else
the new node's `next` is set to the old head and `head` is updated
(`tail` untouched). -/
def push_front (h : Heap T) (l : LinkedList) (value : T) : Heap T × LinkedList :=
  let alloc := Node.new h value none
  match l.head with
  | none => (alloc.1, ⟨some alloc.2, some alloc.2⟩)
  | some node => (setNext alloc.1 alloc.2 (some node), ⟨some alloc.2, l.tail⟩)

/-- `push_after_n(&mut self, n, value)`:
`let nth_node = self.iter().nth(n).ok_or("n over list length")?.unwrap();`
then `nth_node.next = Some(Node::new(value, nth_node.borrow().next.clone()))`.
The function body never assigns `self.head` or `self.tail`, so the returned
header is the unchanged `l` in every branch. -/
def push_after_n (h : Heap T) (l : LinkedList) (n : Nat) (value : T) :
    Res Unit × Heap T × LinkedList :=
  match iterNthItem h l.head n with
  | none => (Res.err Err.indexOutOfRange, h, l)
  | some none => (Res.panicked Fault.unwrapNone, h, l)
  | some (some a) =>
    let child := nodeNext h a
    let alloc := Node.new h value child
    (Res.ok (), setNext alloc.1 a (some alloc.2), l)

/-- `get_nth(&self, nth)`: `self.iter().nth(nth).ok_or("nth over list length")`.
The body only clones links (no `borrow_mut`), so the heap is returned
unchanged in every branch; the success value is the yielded item, of type
`Link<T>` (a still-nested `Option`). -/
def get_nth (h : Heap T) (l : LinkedList) (nth : Nat) : Res (Option Nat) × Heap T :=
  match iterNthItem h l.head nth with
  | none => (Res.err Err.indexOutOfRange, h)
  | some link => (Res.ok link, h)

/-- `update_nth(&self, nth, value)`:
`self.iter().nth(nth).ok_or("nth over list length")?.unwrap()` then
`node.borrow_mut().value = value`.  Takes `&self`, so the header cannot
change; it is returned unchanged to state frame properties. -/
def update_nth (h : Heap T) (l : LinkedList) (nth : Nat) (value : T) :
    Res Unit × Heap T × LinkedList :=
  match iterNthItem h l.head nth with
  | none => (Res.err Err.indexOutOfRange, h, l)
  | some none => (Res.panicked Fault.unwrapNone, h, l)
  | some (some a) => (Res.ok (), setValue h a value, l)

/-- `split_on_nth(self, n)`: evaluates `self.iter().nth(n - 1)` — for
`n = 0` the unsigned subtraction `n - 1` trips the debug-build overflow
check (a panic, not an `Err`); otherwise
`.ok_or("n over list length")?.unwrap()`, then a fresh `sec_lst` gets
`head = nth_node.borrow().next.clone()` and `tail = self.tail.clone()`,
then `nth_node.borrow_mut().next = None`, and `(self, sec_lst)` is returned
with `self`'s own `head`/`tail` fields never reassigned.  `self` is consumed
by value, so on the error path the original header is dropped. -/
def split_on_nth (h : Heap T) (l : LinkedList) (n : Nat) :
    Res (LinkedList × LinkedList) × Heap T :=
  if n = 0 then (Res.panicked Fault.subOverflow, h)
  else
    match iterNthItem h l.head (n - 1) with
    | none => (Res.err Err.indexOutOfRange, h)
    | some none => (Res.panicked Fault.unwrapNone, h)
    | some (some a) =>
      let sec : LinkedList := ⟨nodeNext h a, l.tail⟩
      (Res.ok (l, sec), setNext h a none)

/-- `push_back` folded over a list of values, starting from a given state:
models the call sequence `push_back(v1); ...; push_back(vk)`. -/
def pushBackAll (h : Heap T) (l : LinkedList) (vs : List T) : Heap T × LinkedList :=
  vs.foldl (fun s v => push_back s.1 s.2 v) (h, l)

/-- `chainSeg h cur addrs stop` holds when following `next` links from the
link `cur` visits exactly the addresses `addrs` (each present in the heap)
and ends with the link `stop`.  `chainSeg h cur addrs none` says `addrs` is
the complete chain of the list starting at `cur` (the last node's `next` is
`None`).  This is the abstraction relation all specifications are stated
against. -/
def chainSeg (h : Heap T) : Option Nat → List Nat → Option Nat → Bool
  | cur, [], stop => cur == stop
  | some a, b :: rest, stop =>
    a == b &&
      (match h[b]? with
       | some nd => chainSeg h nd.next rest stop
       | none => false)
  | none, _ :: _, _ => false

/-- The complete chain of a list: from `cur` through `addrs` to `None`. -/
def chain (h : Heap T) (cur : Option Nat) (addrs : List Nat) : Bool :=
  chainSeg h cur addrs none

/-- The values stored at a list of addresses. -/
def valuesAt (h : Heap T) (addrs : List Nat) : List (Option T) :=
  addrs.map fun a => (h[a]?).map (·.value)

theorem chain_eq (h : Heap T) (cur : Option Nat) (addrs : List Nat) :
    chain h cur addrs = chainSeg h cur addrs none := rfl

theorem chainSeg_nil_iff (h : Heap T) (cur stop : Option Nat) :
    chainSeg h cur [] stop = true ↔ cur = stop := by
  cases cur <;> cases stop <;> simp [chainSeg]

theorem chainSeg_cons_iff (h : Heap T) (cur : Option Nat) (b : Nat) (rest : List Nat)
    (stop : Option Nat) :
    chainSeg h cur (b :: rest) stop = true ↔
      cur = some b ∧ ∃ nd, h[b]? = some nd ∧ chainSeg h nd.next rest stop = true := by
  cases cur with
  | none => simp [chainSeg]
  | some a =>
    cases hb : h[b]? with
    | none => simp [chainSeg, hb]
    | some nd => simp [chainSeg, hb]

theorem chainSeg_append_iff (h : Heap T) (l1 l2 : List Nat) (cur stop : Option Nat) :
    chainSeg h cur (l1 ++ l2) stop = true ↔
      ∃ m, chainSeg h cur l1 m = true ∧ chainSeg h m l2 stop = true := by
  induction l1 generalizing cur with
  | nil => simp [chainSeg_nil_iff]
  | cons b rest ih =>
    simp only [List.cons_append, chainSeg_cons_iff, ih]
    constructor
    · rintro ⟨hcur, nd, hnd, m, h1, h2⟩
      exact ⟨m, ⟨hcur, nd, hnd, h1⟩, h2⟩
    · rintro ⟨m, ⟨hcur, nd, hnd, h1⟩, h2⟩
      exact ⟨hcur, nd, hnd, m, h1, h2⟩

theorem chainSeg_singleton_iff (h : Heap T) (cur : Option Nat) (a : Nat) (stop : Option Nat) :
    chainSeg h cur [a] stop = true ↔
      cur = some a ∧ ∃ nd, h[a]? = some nd ∧ nd.next = stop := by
  rw [chainSeg_cons_iff]
  constructor
  · rintro ⟨hcur, nd, hnd, hnil⟩
    exact ⟨hcur, nd, hnd, (chainSeg_nil_iff h nd.next stop).mp hnil⟩
  · rintro ⟨hcur, nd, hnd, hstop⟩
    exact ⟨hcur, nd, hnd, (chainSeg_nil_iff h nd.next stop).mpr hstop⟩

theorem chainSeg_mem_lt (h : Heap T) {cur stop : Option Nat} {addrs : List Nat}
    (hc : chainSeg h cur addrs stop = true) : ∀ b ∈ addrs, b < h.length := by
  induction addrs generalizing cur with
  | nil => simp
  | cons b rest ih =>
    obtain ⟨hcur, nd, hnd, hrest⟩ := (chainSeg_cons_iff h cur b rest stop).mp hc
    intro x hx
    rcases List.mem_cons.mp hx with rfl | hx
    · exact (List.getElem?_eq_some.mp hnd).1
    · exact ih hrest x hx

theorem chainSeg_append_heap {h : Heap T} (h2 : Heap T) {cur stop : Option Nat}
    {addrs : List Nat} (hc : chainSeg h cur addrs stop = true) :
    chainSeg (h ++ h2) cur addrs stop = true := by
  induction addrs generalizing cur with
  | nil =>
    rw [chainSeg_nil_iff] at hc ⊢
    exact hc
  | cons b rest ih =>
    obtain ⟨hcur, nd, hnd, hrest⟩ := (chainSeg_cons_iff h cur b rest stop).mp hc
    refine (chainSeg_cons_iff (h ++ h2) cur b rest stop).mpr ⟨hcur, nd, ?_, ih hrest⟩
    rw [List.getElem?_append_left (List.getElem?_eq_some.mp hnd).1]
    exact hnd

theorem length_setNext (h : Heap T) (a : Nat) (nx : Option Nat) :
    (setNext h a nx).length = h.length := by
  unfold setNext
  cases h[a]? <;> simp

theorem getElem?_setNext_ne (h : Heap T) {a b : Nat} (nx : Option Nat) (hab : b ≠ a) :
    (setNext h a nx)[b]? = h[b]? := by
  unfold setNext
  cases h[a]? with
  | none => rfl
  | some nd => exact List.getElem?_set_ne (Ne.symm hab)

theorem getElem?_setNext_self {h : Heap T} {a : Nat} {nd : Node T} (nx : Option Nat)
    (ha : h[a]? = some nd) : (setNext h a nx)[a]? = some { nd with next := nx } := by
  unfold setNext
  rw [ha]
  exact List.getElem?_set_eq_of_lt _ (List.getElem?_eq_some.mp ha).1

theorem length_setValue (h : Heap T) (a : Nat) (v : T) :
    (setValue h a v).length = h.length := by
  unfold setValue
  cases h[a]? <;> simp

theorem getElem?_setValue_ne (h : Heap T) {a b : Nat} (v : T) (hab : b ≠ a) :
    (setValue h a v)[b]? = h[b]? := by
  unfold setValue
  cases h[a]? with
  | none => rfl
  | some nd => exact List.getElem?_set_ne (Ne.symm hab)

theorem getElem?_setValue_self {h : Heap T} {a : Nat} {nd : Node T} (v : T)
    (ha : h[a]? = some nd) : (setValue h a v)[a]? = some { nd with value := v } := by
  unfold setValue
  rw [ha]
  exact List.getElem?_set_eq_of_lt _ (List.getElem?_eq_some.mp ha).1

theorem getElem?_setValue_next (h : Heap T) (a : Nat) (v : T) (b : Nat) :
    ((setValue h a v)[b]?).map Node.next = (h[b]?).map Node.next := by
  by_cases hab : b = a
  · subst hab
    cases hb : h[b]? with
    | none => simp [setValue, hb]
    | some nd =>
      rw [getElem?_setValue_self v hb]
      rfl
  · rw [getElem?_setValue_ne h v hab]

theorem chainSeg_congr {h h' : Heap T}
    (hnx : ∀ b : Nat, ((h'[b]?).map Node.next) = ((h[b]?).map Node.next))
    {stop : Option Nat} : ∀ {cur : Option Nat} {addrs : List Nat},
    chainSeg h' cur addrs stop = chainSeg h cur addrs stop := by
  intro cur addrs
  induction addrs generalizing cur with
  | nil => cases cur <;> rfl
  | cons b rest ih =>
    cases cur with
    | none => rfl
    | some c =>
      have hb := hnx b
      cases h1 : h[b]? with
      | none =>
        rw [h1] at hb
        cases h2 : h'[b]? with
        | none => simp [chainSeg, h1, h2]
        | some nd =>
          rw [h2] at hb
          simp at hb
      | some nd =>
        rw [h1] at hb
        cases h2 : h'[b]? with
        | none =>
          rw [h2] at hb
          simp at hb
        | some nd' =>
          rw [h2] at hb
          simp only [Option.map_some', Option.some.injEq] at hb
          simp [chainSeg, h1, h2, hb, ih]

theorem chainSeg_setValue (h : Heap T) (a : Nat) (v : T) {cur stop : Option Nat}
    {addrs : List Nat} :
    chainSeg (setValue h a v) cur addrs stop = chainSeg h cur addrs stop :=
  chainSeg_congr (getElem?_setValue_next h a v)

theorem chainSeg_setNext_of_notMem (h : Heap T) {a : Nat} (nx : Option Nat)
    {stop : Option Nat} : ∀ {cur : Option Nat} {addrs : List Nat}, a ∉ addrs →
    chainSeg (setNext h a nx) cur addrs stop = chainSeg h cur addrs stop := by
  intro cur addrs
  induction addrs generalizing cur with
  | nil =>
    intro _
    cases cur <;> rfl
  | cons b rest ih =>
    intro ha
    cases cur with
    | none => rfl
    | some c =>
      have hba : b ≠ a := fun hEq => ha (hEq ▸ List.mem_cons_self b rest)
      have hget : (setNext h a nx)[b]? = h[b]? := getElem?_setNext_ne h nx hba
      have ha' : a ∉ rest := fun hr => ha (List.mem_cons_of_mem b hr)
      cases h1 : h[b]? with
      | none => simp [chainSeg, h1, hget]
      | some nd => simp [chainSeg, h1, hget, ih ha']

theorem chainSeg_setNext_last {h : Heap T} {cur m : Option Nat} {l1 : List Nat} {a : Nat}
    (nx : Option Nat) (hnotin : a ∉ l1) (hc : chainSeg h cur (l1 ++ [a]) m = true) :
    chainSeg (setNext h a nx) cur (l1 ++ [a]) nx = true := by
  obtain ⟨mid, hseg1, hseg2⟩ := (chainSeg_append_iff h l1 [a] cur m).mp hc
  obtain ⟨hmid, nd, hnd, _⟩ := (chainSeg_singleton_iff h mid a m).mp hseg2
  refine (chainSeg_append_iff _ l1 [a] cur nx).mpr ⟨mid, ?_, ?_⟩
  · rw [chainSeg_setNext_of_notMem h nx hnotin]
    exact hseg1
  · exact (chainSeg_singleton_iff _ mid a nx).mpr
      ⟨hmid, { nd with next := nx }, getElem?_setNext_self nx hnd, rfl⟩

theorem chain_determ (h : Heap T) : ∀ {cur : Option Nat} {l1 l2 : List Nat},
    chain h cur l1 = true → chain h cur l2 = true → l1 = l2 := by
  intro cur l1
  induction l1 generalizing cur with
  | nil =>
    intro l2 h1 h2
    rw [chain_eq, chainSeg_nil_iff] at h1
    subst h1
    cases l2 with
    | nil => rfl
    | cons c r =>
      rw [chain_eq, chainSeg_cons_iff] at h2
      exact absurd h2.1 (by simp)
  | cons b rest ih =>
    intro l2 h1 h2
    rw [chain_eq, chainSeg_cons_iff] at h1
    obtain ⟨hcur, nd, hnd, hrest⟩ := h1
    cases l2 with
    | nil =>
      rw [chain_eq, chainSeg_nil_iff] at h2
      rw [h2] at hcur
      simp at hcur
    | cons c r2 =>
      rw [chain_eq, chainSeg_cons_iff] at h2
      obtain ⟨hcur2, nd2, hnd2, hrest2⟩ := h2
      rw [hcur] at hcur2
      injection hcur2 with hbc
      subst hbc
      rw [hnd] at hnd2
      injection hnd2 with hnd2
      subst hnd2
      exact congrArg (b :: ·) (ih hrest hrest2)

theorem chain_take_drop (h : Heap T) (addrs : List Nat) :
    ∀ (cur : Option Nat) (n : Nat), chain h cur addrs = true →
      chainSeg h cur (addrs.take n) addrs[n]? = true ∧
        chainSeg h addrs[n]? (addrs.drop n) none = true := by
  induction addrs with
  | nil =>
    intro cur n hc
    rw [chain_eq, chainSeg_nil_iff] at hc
    subst hc
    simp [chainSeg_nil_iff]
  | cons b rest ih =>
    intro cur n hc
    rw [chain_eq, chainSeg_cons_iff] at hc
    obtain ⟨hcur, nd, hnd, hrest⟩ := hc
    cases n with
    | zero =>
      subst hcur
      refine ⟨by simp [chainSeg_nil_iff], ?_⟩
      rw [List.drop_zero, List.getElem?_cons_zero]
      exact (chainSeg_cons_iff h (some b) b rest none).mpr ⟨rfl, nd, hnd, hrest⟩
    | succ m =>
      obtain ⟨ht, hd⟩ := ih nd.next m hrest
      constructor
      · rw [List.take_succ_cons, List.getElem?_cons_succ]
        exact (chainSeg_cons_iff h cur b (rest.take m) rest[m]?).mpr ⟨hcur, nd, hnd, ht⟩
      · rw [List.drop_succ_cons, List.getElem?_cons_succ]
        exact hd

theorem chain_nodup {h : Heap T} {cur : Option Nat} {addrs : List Nat}
    (hc : chain h cur addrs = true) : addrs.Nodup := by
  rw [List.nodup_iff_injective_get]
  intro i j hEq
  have hg : addrs[i.val] = addrs[j.val] := by
    simpa [List.get_eq_getElem] using hEq
  have hi := (chain_take_drop h addrs cur i.val hc).2
  have hj := (chain_take_drop h addrs cur j.val hc).2
  rw [List.getElem?_eq_getElem i.isLt, hg] at hi
  rw [List.getElem?_eq_getElem j.isLt] at hj
  have hdd : addrs.drop i.val = addrs.drop j.val := chain_determ h hi hj
  have hlen : addrs.length - i.val = addrs.length - j.val := by
    rw [← List.length_drop, ← List.length_drop, hdd]
  have : i.val = j.val := by omega
  exact Fin.ext this

theorem chain_length_le {h : Heap T} {cur : Option Nat} {addrs : List Nat}
    (hc : chain h cur addrs = true) : addrs.length ≤ h.length := by
  classical
  have hnd : addrs.Nodup := chain_nodup hc
  have hlt : ∀ a ∈ addrs, a < h.length := chainSeg_mem_lt h hc
  have h1 : addrs.toFinset.card = addrs.length := List.toFinset_card_of_nodup hnd
  have h2 : addrs.toFinset ⊆ Finset.range h.length := by
    intro a ha
    exact Finset.mem_range.mpr (hlt a (List.mem_toFinset.mp ha))
  have h3 := Finset.card_le_card h2
  simpa [h1] using h3

theorem iterNthItem_eq (h : Heap T) (addrs : List Nat) :
    ∀ (cur : Option Nat) (n : Nat), chain h cur addrs = true →
      iterNthItem h cur n = (addrs[n]?).map some := by
  induction addrs with
  | nil =>
    intro cur n hc
    rw [chain_eq, chainSeg_nil_iff] at hc
    subst hc
    simp [iterNthItem]
  | cons b rest ih =>
    intro cur n hc
    rw [chain_eq, chainSeg_cons_iff] at hc
    obtain ⟨hcur, nd, hnd, hrest⟩ := hc
    subst hcur
    cases n with
    | zero => simp [iterNthItem]
    | succ m =>
      have hnext : nodeNext h b = nd.next := by simp [nodeNext, hnd]
      simp only [iterNthItem, hnext, List.getElem?_cons_succ]
      exact ih nd.next m hrest

theorem iterFrom_eq (h : Heap T) (addrs : List Nat) :
    ∀ (cur : Option Nat) (fuel : Nat), chain h cur addrs = true → addrs.length ≤ fuel →
      iterFrom h cur fuel = addrs.map some := by
  induction addrs with
  | nil =>
    intro cur fuel hc _
    rw [chain_eq, chainSeg_nil_iff] at hc
    subst hc
    cases fuel <;> simp [iterFrom]
  | cons b rest ih =>
    intro cur fuel hc hf
    rw [chain_eq, chainSeg_cons_iff] at hc
    obtain ⟨hcur, nd, hnd, hrest⟩ := hc
    subst hcur
    cases fuel with
    | zero => exact absurd hf (by simp)
    | succ f =>
      have hnext : nodeNext h b = nd.next := by simp [nodeNext, hnd]
      simp only [iterFrom, hnext, List.map_cons]
      refine congrArg (some b :: ·) ?_
      exact ih nd.next f hrest (by simpa using Nat.succ_le_succ_iff.mp (by simpa using hf))

theorem iterValues_eq {h : Heap T} {l : LinkedList} {addrs : List Nat}
    (hc : chain h l.head addrs = true) : iterValues h l = valuesAt h addrs := by
  unfold iterValues valuesAt
  rw [iterFrom_eq h addrs l.head h.length hc (chain_length_le hc), List.map_map]
  rfl

theorem valuesAt_append (h h2 : Heap T) (addrs : List Nat)
    (hlt : ∀ a ∈ addrs, a < h.length) : valuesAt (h ++ h2) addrs = valuesAt h addrs := by
  unfold valuesAt
  refine List.map_congr_left ?_
  intro a ha
  rw [List.getElem?_append_left (hlt a ha)]

theorem valuesAt_setNext (h : Heap T) (a : Nat) (nx : Option Nat) (addrs : List Nat) :
    valuesAt (setNext h a nx) addrs = valuesAt h addrs := by
  unfold valuesAt
  refine List.map_congr_left ?_
  intro b _
  by_cases hba : b = a
  · subst hba
    cases hb : h[b]? with
    | none => simp [setNext, hb]
    | some nd =>
      rw [getElem?_setNext_self nx hb]
      rfl
  · rw [getElem?_setNext_ne h nx hba]

theorem valuesAt_setValue_of_notMem (h : Heap T) {a : Nat} (v : T) {addrs : List Nat}
    (ha : a ∉ addrs) : valuesAt (setValue h a v) addrs = valuesAt h addrs := by
  unfold valuesAt
  refine List.map_congr_left ?_
  intro b hb
  have hba : b ≠ a := fun hEq => ha (hEq ▸ hb)
  rw [getElem?_setValue_ne h v hba]

theorem nodeNext_eq_of_getElem {h : Heap T} {a : Nat} {nd : Node T}
    (hnd : h[a]? = some nd) : nodeNext h a = nd.next := by
  simp [nodeNext, hnd]

theorem chain_getElem_ne {h : Heap T} {cur : Option Nat} {addrs : List Nat}
    (hc : chain h cur addrs = true) {i j : Nat} (hi : i < addrs.length)
    (hj : j < addrs.length) (hij : i ≠ j) : addrs[i] ≠ addrs[j] := by
  intro hEq
  exact hij ((List.Nodup.getElem_inj_iff (chain_nodup hc)).mp hEq)

set_option maxHeartbeats 1000000 in
theorem push_back_spec {h : Heap T} {l : LinkedList} {addrs : List Nat} (v : T)
    (hc : chain h l.head addrs = true) (ht : l.tail = addrs.getLast?) :
    (push_back h l v).2.head = (if addrs = [] then some h.length else l.head) ∧
      chain (push_back h l v).1 (push_back h l v).2.head (addrs ++ [h.length]) = true ∧
      (push_back h l v).2.tail = some h.length ∧
      valuesAt (push_back h l v).1 (addrs ++ [h.length]) = valuesAt h addrs ++ [some v] := by
  cases hlt : l.tail with
  | none =>
    have haddrs : addrs = [] := List.getLast?_eq_none_iff.mp (hlt ▸ ht).symm
    subst haddrs
    rw [chain_eq, chainSeg_nil_iff] at hc
    simp only [push_back, Node.new, hlt, if_pos rfl]
    refine ⟨by trivial, ?_, by trivial, ?_⟩
    · rw [chain_eq, List.nil_append]
      exact (chainSeg_singleton_iff _ _ _ _).mpr
        ⟨rfl, ⟨v, none⟩, List.getElem?_concat_length h ⟨v, none⟩, rfl⟩
    · simp only [valuesAt, List.nil_append, List.map_cons, List.map_nil]
      rw [List.getElem?_concat_length h ⟨v, none⟩]
      rfl
  | some t =>
    have hlast : addrs.getLast? = some t := (hlt ▸ ht).symm
    obtain ⟨l1, haddrs⟩ := List.getLast?_eq_some_iff.mp hlast
    have hne : addrs ≠ [] := by
      rw [haddrs]
      simp
    have hnotin : t ∉ l1 := by
      have hnd : addrs.Nodup := chain_nodup hc
      rw [haddrs] at hnd
      have hdisj := (List.nodup_append.mp hnd).2.2
      intro hmem
      exact hdisj hmem (List.mem_singleton.mpr rfl)
    have hmemlt : ∀ a ∈ addrs, a < h.length := by
      rw [chain_eq] at hc
      exact chainSeg_mem_lt h hc
    have htlt : t < h.length := by
      refine hmemlt t ?_
      rw [haddrs]
      simp
    have htne : t ≠ h.length := Nat.ne_of_lt htlt
    simp only [push_back, Node.new, hlt, if_neg hne]
    refine ⟨by trivial, ?_, by trivial, ?_⟩
    · rw [chain_eq]
      have hc1 : chainSeg (h ++ [⟨v, none⟩]) l.head addrs none :=
        chainSeg_append_heap [⟨v, none⟩] hc
      rw [haddrs] at hc1
      have hseg : chainSeg (setNext (h ++ [⟨v, none⟩]) t (some h.length)) l.head
          (l1 ++ [t]) (some h.length) = true :=
        chainSeg_setNext_last (some h.length) hnotin hc1
      have hnew : (setNext (h ++ [⟨v, none⟩]) t (some h.length))[h.length]? =
          some ⟨v, none⟩ := by
        rw [getElem?_setNext_ne _ _ (Ne.symm htne)]
        exact List.getElem?_concat_length h ⟨v, none⟩
      have hlastseg : chainSeg (setNext (h ++ [⟨v, none⟩]) t (some h.length))
          (some h.length) [h.length] none = true :=
        (chainSeg_singleton_iff _ _ _ _).mpr ⟨rfl, ⟨v, none⟩, hnew, rfl⟩
      have := (chainSeg_append_iff (setNext (h ++ [⟨v, none⟩]) t (some h.length))
          (l1 ++ [t]) [h.length] l.head none).mpr ⟨some h.length, hseg, hlastseg⟩
      rw [haddrs]
      exact this
    · rw [valuesAt_setNext]
      have hsplit : valuesAt (h ++ [⟨v, none⟩]) (addrs ++ [h.length]) =
          valuesAt (h ++ [⟨v, none⟩]) addrs ++ valuesAt (h ++ [⟨v, none⟩]) [h.length] := by
        simp [valuesAt]
      rw [hsplit, valuesAt_append h [⟨v, none⟩] addrs hmemlt]
      simp only [valuesAt, List.map_cons, List.map_nil]
      rw [List.getElem?_concat_length h ⟨v, none⟩]
      rfl

theorem pushBackAll_spec (vs : List T) :
    ∀ (h : Heap T) (l : LinkedList) (addrs : List Nat),
      chain h l.head addrs = true → l.tail = addrs.getLast? →
      ∃ addrs', chain (pushBackAll h l vs).1 (pushBackAll h l vs).2.head addrs' = true ∧
        (pushBackAll h l vs).2.tail = addrs'.getLast? ∧
        valuesAt (pushBackAll h l vs).1 addrs' = valuesAt h addrs ++ vs.map some := by
  induction vs with
  | nil =>
    intro h l addrs hc ht
    exact ⟨addrs, hc, ht, by simp [pushBackAll]⟩
  | cons v rest ih =>
    intro h l addrs hc ht
    have hfold : pushBackAll h l (v :: rest) =
        pushBackAll (push_back h l v).1 (push_back h l v).2 rest := rfl
    obtain ⟨_, hch, htl, hvals⟩ := push_back_spec v hc ht
    obtain ⟨addrs', h1, h2, h3⟩ := ih (push_back h l v).1 (push_back h l v).2
      (addrs ++ [h.length]) hch (by rw [htl, List.getLast?_concat])
    refine ⟨addrs', by rw [hfold]; exact h1, by rw [hfold]; exact h2, ?_⟩
    rw [hfold, h3, hvals]
    simp

/-- C1 (failing evaluation): on the two-node list `[1, 2]` (heap addresses 0
and 1, `head = 0`, `tail = 1`), `split_on_nth(1)` severs node 0 (its `next`
becomes `None`) and returns the right list `{head = 1, tail = 1}` as the
claim states, but the returned left list is `{head = 0, tail = 1}`: its
`tail` still references address 1 — the original tail, now the right list's
node — and not the severed node at index `n - 1 = 0`, because the source
never reassigns `self.tail` before returning `(self, sec_lst)`. -/
theorem C1_split_left_tail_stale :
    split_on_nth ([⟨1, some 1⟩, ⟨2, none⟩] : Heap Nat) ⟨some 0, some 1⟩ 1 =
      (Res.ok (⟨some 0, some 1⟩, ⟨some 1, some 1⟩), [⟨1, none⟩, ⟨2, none⟩]) ∧
      (⟨some 0, some 1⟩ : LinkedList).tail ≠ some 0 := by
  decide

/-- C2 (failing evaluation): `split_on_nth(0)` evaluates `n - 1` on the
unsigned index before any bounds check, so for every heap and every list it
aborts with the debug-build subtract-with-overflow panic instead of
returning a recoverable `Err(IndexOutOfRange)`. -/
theorem C2_split_zero_is_arithmetic_fault (h : Heap T) (l : LinkedList) :
    split_on_nth h l 0 = (Res.panicked Fault.subOverflow, h) := by
  simp [split_on_nth]

/-- C3 (failing evaluation): starting from `new()`, after `push_back(1)` the
list is `{head = 0, tail = 0}` over the one-node heap; `split_on_nth(1)`
(split at the full element count) then returns a right list whose `head` is
`None` and whose iteration yields zero elements, yet whose `tail` is
`Some 0` — the code copies `self.tail` into the right list without noticing
the severed node's old `next` was `None`, so "`head` is `None` iff the list
is empty iff `tail` is `None`" fails for a list produced by the public
operations. -/
theorem C3_split_breaks_empty_invariant :
    push_back ([] : Heap Nat) LinkedList.new 1 = ([⟨1, none⟩], ⟨some 0, some 0⟩) ∧
      split_on_nth ([⟨1, none⟩] : Heap Nat) ⟨some 0, some 0⟩ 1 =
        (Res.ok (⟨some 0, some 0⟩, ⟨none, some 0⟩), [⟨1, none⟩]) ∧
      iterValues ([⟨1, none⟩] : Heap Nat) ⟨none, some 0⟩ = [] ∧
      (⟨none, some 0⟩ : LinkedList).tail ≠ none := by
  decide

/-- C9: whenever `get_nth`, `update_nth`, `push_after_n` or `split_on_nth`
returns an `Err`, the state is exactly as before the call: the heap (hence
every node value and every `next` link) is unchanged, and for the two
`&mut self`/`&self` operations the header (`head` and `tail`) is unchanged
as well (`split_on_nth` consumes its list, so only the heap survives an
error there; `get_nth` never mutates at all, error or not). -/
theorem C9_error_atomicity (h : Heap T) (l : LinkedList) (n : Nat) (v : T) :
    (get_nth h l n).2 = h ∧
    (∀ e, (update_nth h l n v).1 = Res.err e →
      (update_nth h l n v).2.1 = h ∧ (update_nth h l n v).2.2 = l) ∧
    (∀ e, (push_after_n h l n v).1 = Res.err e →
      (push_after_n h l n v).2.1 = h ∧ (push_after_n h l n v).2.2 = l) ∧
    (∀ e, (split_on_nth h l n).1 = Res.err e → (split_on_nth h l n).2 = h) := by
  refine ⟨?_, ?_, ?_, ?_⟩
  · unfold get_nth
    cases iterNthItem h l.head n <;> rfl
  · intro e hE
    rcases hit : iterNthItem h l.head n with _ | link
    · simp [update_nth, hit]
    · rcases link with _ | a <;> simp [update_nth, hit] at hE
  · intro e hE
    rcases hit : iterNthItem h l.head n with _ | link
    · simp [push_after_n, hit]
    · rcases link with _ | a <;> simp [push_after_n, hit] at hE
  · intro e hE
    by_cases hn : n = 0
    · simp [split_on_nth, hn] at hE
    · rcases hit : iterNthItem h l.head (n - 1) with _ | link
      · simp [split_on_nth, hn, hit]
      · rcases link with _ | a <;> simp [split_on_nth, hn, hit] at hE

/-- Witness for C9 at a concrete input: on the empty list over the empty
heap, index 1 makes `update_nth`, `push_after_n` and `split_on_nth` return
`Err`, and each leaves the state unchanged; `get_nth` returns the heap
untouched. -/
theorem C9_error_atomicity_witness :
    (get_nth ([] : Heap Nat) ⟨none, none⟩ 1).2 = [] ∧
    (update_nth ([] : Heap Nat) ⟨none, none⟩ 1 5).2.1 = [] ∧
    (update_nth ([] : Heap Nat) ⟨none, none⟩ 1 5).2.2 = (⟨none, none⟩ : LinkedList) ∧
    (push_after_n ([] : Heap Nat) ⟨none, none⟩ 1 5).2.1 = [] ∧
    (push_after_n ([] : Heap Nat) ⟨none, none⟩ 1 5).2.2 = (⟨none, none⟩ : LinkedList) ∧
    (split_on_nth ([] : Heap Nat) ⟨none, none⟩ 1).2 = [] := by
  have hmain := C9_error_atomicity ([] : Heap Nat) ⟨none, none⟩ 1 5
  have hupd := hmain.2.1 Err.indexOutOfRange (by decide)
  have hpush := hmain.2.2.1 Err.indexOutOfRange (by decide)
  have hsplit := hmain.2.2.2 Err.indexOutOfRange (by decide)
  exact ⟨hmain.1, hupd.1, hupd.2, hpush.1, hpush.2, hsplit⟩

/-- C10: the iterator only ever yields present nodes — every item it returns
is `Some(node)` — so whenever `get_nth` succeeds, the value inside `Ok` is
itself `Some` of an actual node reference, never an empty link. -/
theorem C10_success_is_always_some (h : Heap T) :
    (∀ (cur : Option Nat) (n : Nat) (x : Option Nat),
      iterNthItem h cur n = some x → ∃ a, x = some a) ∧
    (∀ (l : LinkedList) (i : Nat) (y : Option Nat),
      (get_nth h l i).1 = Res.ok y → ∃ a, y = some a) := by
  have hiter : ∀ (n : Nat) (cur : Option Nat) (x : Option Nat),
      iterNthItem h cur n = some x → ∃ a, x = some a := by
    intro n
    induction n with
    | zero =>
      intro cur x hE
      cases cur with
      | none => simp [iterNthItem] at hE
      | some a =>
        simp [iterNthItem] at hE
        exact ⟨a, hE.symm⟩
    | succ m ih =>
      intro cur x hE
      cases cur with
      | none => simp [iterNthItem] at hE
      | some a => exact ih (nodeNext h a) x (by simpa [iterNthItem] using hE)
  refine ⟨fun cur n => hiter n cur, ?_⟩
  intro l i y hE
  rcases hit : iterNthItem h l.head i with _ | link
  · simp [get_nth, hit] at hE
  · have hy : link = y := by
      simpa [get_nth, hit] using hE
    subst hy
    exact hiter i l.head link hit

/-- Witness for C10 at a concrete input: on the one-node heap, the item
yielded at position 0 and the success value of `get_nth 0` are both `Some`
of node address 0. -/
theorem C10_success_is_always_some_witness :
    ∃ a, (some 0 : Option Nat) = some a ∧ ∃ b, (some 0 : Option Nat) = some b := by
  have hmain := C10_success_is_always_some ([⟨7, none⟩] : Heap Nat)
  have h1 := hmain.1 (some 0) 0 (some 0) (by decide)
  have h2 := hmain.2 ⟨some 0, some 0⟩ 0 (some 0) (by decide)
  obtain ⟨a, ha⟩ := h1
  obtain ⟨b, hb⟩ := h2
  exact ⟨a, ha, b, hb⟩

/-- C6: for a list whose chain of node addresses is `addrs`, the item
`self.iter().nth(i)` yields is exactly the `i`-th element of the chain (and
of the full iteration sequence); for `i < count`, `get_nth(i)` succeeds with
precisely that node, and for `i ≥ count` it fails with the IndexOutOfRange
error. -/
theorem C6_get_nth_agrees_with_iteration (h : Heap T) (l : LinkedList)
    (addrs : List Nat) (i : Nat) (hc : chain h l.head addrs = true) :
    iterNthItem h l.head i = (addrs[i]?).map some ∧
    (iterFrom h l.head h.length)[i]? = (addrs[i]?).map some ∧
    (i < addrs.length → (get_nth h l i).1 = Res.ok addrs[i]?) ∧
    (addrs.length ≤ i → (get_nth h l i).1 = Res.err Err.indexOutOfRange) := by
  have hitem := iterNthItem_eq h addrs l.head i hc
  refine ⟨hitem, ?_, ?_, ?_⟩
  · rw [iterFrom_eq h addrs l.head h.length hc (chain_length_le hc)]
    exact List.getElem?_map some addrs i
  · intro hi
    have hit : iterNthItem h l.head i = some (some addrs[i]) := by
      rw [hitem, List.getElem?_eq_getElem hi]
      rfl
    simp [get_nth, hit, List.getElem?_eq_getElem hi]
  · intro hi
    have hit : iterNthItem h l.head i = none := by
      rw [hitem, List.getElem?_eq_none hi]
      rfl
    simp [get_nth, hit]

/-- Witness for C6 at a concrete input: on the two-node chain `[0, 1]`
holding `[10, 20]`, `iter().nth(1)` yields node 1, `get_nth(1)` succeeds
with node 1, and `get_nth(2)` fails with IndexOutOfRange. -/
theorem C6_get_nth_agrees_with_iteration_witness :
    iterNthItem ([⟨10, some 1⟩, ⟨20, none⟩] : Heap Nat) (some 0) 1 = some (some 1) ∧
    (get_nth ([⟨10, some 1⟩, ⟨20, none⟩] : Heap Nat) ⟨some 0, some 1⟩ 1).1 =
      Res.ok (some 1) ∧
    (get_nth ([⟨10, some 1⟩, ⟨20, none⟩] : Heap Nat) ⟨some 0, some 1⟩ 2).1 =
      Res.err Err.indexOutOfRange := by
  have hmain := C6_get_nth_agrees_with_iteration [⟨10, some 1⟩, ⟨20, none⟩]
    ⟨some 0, some 1⟩ [0, 1] 1 (by decide)
  have hmain2 := C6_get_nth_agrees_with_iteration [⟨10, some 1⟩, ⟨20, none⟩]
    ⟨some 0, some 1⟩ [0, 1] 2 (by decide)
  exact ⟨hmain.1, hmain.2.2.1 (by decide), hmain2.2.2.2 (by decide)⟩

/-- C7: for a valid index `i`, `update_nth(i, v)` succeeds, leaves the
header (`head`, `tail`) unchanged, preserves the whole chain of addresses
(hence the element count and every link), makes `get_nth(i)` return the same
node now holding value `v`, and leaves the value at every other position
unchanged. -/
theorem C7_update_nth_in_place (h : Heap T) (l : LinkedList) (addrs : List Nat)
    (i : Nat) (v : T) (hc : chain h l.head addrs = true) (hi : i < addrs.length) :
    (update_nth h l i v).1 = Res.ok () ∧
    (update_nth h l i v).2.2 = l ∧
    chain (update_nth h l i v).2.1 l.head addrs = true ∧
    (∃ a, addrs[i]? = some a ∧
      (get_nth (update_nth h l i v).2.1 l i).1 = Res.ok (some a) ∧
      linkValue (update_nth h l i v).2.1 (some a) = some v) ∧
    (∀ j, j ≠ i →
      linkValue (update_nth h l i v).2.1 addrs[j]? = linkValue h addrs[j]?) := by
  have hgn : addrs[i]? = some addrs[i] := List.getElem?_eq_getElem hi
  have hitem : iterNthItem h l.head i = some (some addrs[i]) := by
    rw [iterNthItem_eq h addrs l.head i hc, hgn]
    rfl
  have hmem : addrs[i] < h.length := chainSeg_mem_lt h hc addrs[i] (List.getElem_mem hi)
  have hnode : h[addrs[i]]? = some h[addrs[i]] := List.getElem?_eq_getElem hmem
  have hred : update_nth h l i v = (Res.ok (), setValue h addrs[i] v, l) := by
    simp [update_nth, hitem]
  rw [hred]
  have hc' : chain (setValue h addrs[i] v) l.head addrs = true := by
    rw [chain_eq, chainSeg_setValue]
    exact hc
  refine ⟨rfl, rfl, hc', ⟨addrs[i], hgn, ?_, ?_⟩, ?_⟩
  · have hitem' : iterNthItem (setValue h addrs[i] v) l.head i = some (some addrs[i]) := by
      rw [iterNthItem_eq _ addrs l.head i hc', hgn]
      rfl
    simp [get_nth, hitem']
  · simp [linkValue, getElem?_setValue_self v hnode]
  · intro j hj
    by_cases hjl : j < addrs.length
    · have hja : addrs[j]? = some addrs[j] := List.getElem?_eq_getElem hjl
      have hne : addrs[j] ≠ addrs[i] := chain_getElem_ne hc hjl hi hj
      rw [hja]
      simp [linkValue, getElem?_setValue_ne h v hne]
    · rw [List.getElem?_eq_none (Nat.le_of_not_lt hjl)]
      rfl

/-- Witness for C7 at a concrete input: updating position 0 of the chain
`[0, 1]` holding `[10, 20]` to 99 succeeds, keeps the header and chain,
makes `get_nth(0)` see 99, and leaves position 1 unchanged. -/
theorem C7_update_nth_in_place_witness :
    (update_nth ([⟨10, some 1⟩, ⟨20, none⟩] : Heap Nat) ⟨some 0, some 1⟩ 0 99).1 =
      Res.ok () ∧
    (update_nth ([⟨10, some 1⟩, ⟨20, none⟩] : Heap Nat) ⟨some 0, some 1⟩ 0 99).2.2 =
      (⟨some 0, some 1⟩ : LinkedList) ∧
    chain (update_nth ([⟨10, some 1⟩, ⟨20, none⟩] : Heap Nat)
      ⟨some 0, some 1⟩ 0 99).2.1 (some 0) [0, 1] = true ∧
    linkValue (update_nth ([⟨10, some 1⟩, ⟨20, none⟩] : Heap Nat)
      ⟨some 0, some 1⟩ 0 99).2.1 (some 1) =
      linkValue ([⟨10, some 1⟩, ⟨20, none⟩] : Heap Nat) (some 1) := by
  have hmain := C7_update_nth_in_place [⟨10, some 1⟩, ⟨20, none⟩]
    ⟨some 0, some 1⟩ [0, 1] 0 99 (by decide) (by decide)
  exact ⟨hmain.1, hmain.2.1, hmain.2.2.1, hmain.2.2.2.2 1 (by decide)⟩

/-- C5: starting from `new()`, after `push_back(v1); ...; push_back(vk)`
(`k ≥ 1`), iterating head-to-tail yields exactly `v1, ..., vk` in order, and
the list's `tail` references the node holding `vk`. -/
theorem C5_push_back_order (vs : List T) (h0 : Heap T) (hvs : vs ≠ []) :
    iterValues (pushBackAll h0 LinkedList.new vs).1 (pushBackAll h0 LinkedList.new vs).2 =
      vs.map some ∧
    ∃ t, (pushBackAll h0 LinkedList.new vs).2.tail = some t ∧
      (((pushBackAll h0 LinkedList.new vs).1)[t]?).map (·.value) = vs.getLast? := by
  have hbase : chain h0 LinkedList.new.head [] = true := by
    rw [chain_eq]
    exact (chainSeg_nil_iff h0 none none).mpr rfl
  obtain ⟨addrs', h1, h2, h3⟩ := pushBackAll_spec vs h0 LinkedList.new [] hbase rfl
  rw [show valuesAt h0 [] = [] from rfl, List.nil_append] at h3
  constructor
  · rw [iterValues_eq h1, h3]
  · cases haddrs : addrs'.getLast? with
    | none =>
      exfalso
      have he : addrs' = [] := List.getLast?_eq_none_iff.mp haddrs
      rw [he] at h3
      have hmapnil : vs.map some = [] := h3.symm
      exact hvs (by simpa using hmapnil)
    | some t =>
      refine ⟨t, by rw [h2, haddrs], ?_⟩
      have hlast := congrArg List.getLast? h3
      rw [valuesAt, List.getLast?_map, List.getLast?_map, haddrs] at hlast
      cases hw : vs.getLast? with
      | none => exact absurd (List.getLast?_eq_none_iff.mp hw) hvs
      | some w =>
        rw [hw] at hlast
        simp only [Option.map_some', Option.some.injEq] at hlast
        exact hlast

/-- Witness for C5 at a concrete input: pushing `1, 2, 3` onto a fresh list
(empty heap) yields iteration `[1, 2, 3]` and a tail node holding 3. -/
theorem C5_push_back_order_witness :
    iterValues (pushBackAll ([] : Heap Nat) LinkedList.new [1, 2, 3]).1
        (pushBackAll ([] : Heap Nat) LinkedList.new [1, 2, 3]).2 =
      [some 1, some 2, some 3] ∧
    ∃ t, (pushBackAll ([] : Heap Nat) LinkedList.new [1, 2, 3]).2.tail = some t ∧
      (((pushBackAll ([] : Heap Nat) LinkedList.new [1, 2, 3]).1)[t]?).map (·.value) =
        some 3 := by
  have hmain := C5_push_back_order [1, 2, 3] ([] : Heap Nat) (by decide)
  exact ⟨hmain.1, hmain.2⟩

/-- C4: for a valid index `n` into the chain `addrs` of a well-formed list,
`push_after_n(n, v)` succeeds and links the freshly allocated node (address
`h.length`) between the node at position `n` and its old successor — the
node at `n` now points to the new node, the new node points to the old
successor and holds `v`, and the full chain becomes
`take (n+1) ++ new :: drop (n+1)` — while the header, in particular `tail`,
is returned verbatim; when `n` is the last index this leaves `tail` still
referencing the former last node (position `n`) and not the new node. -/
theorem C4_push_after_n_links_without_tail_update (h : Heap T) (l : LinkedList)
    (addrs : List Nat) (n : Nat) (v : T)
    (hc : chain h l.head addrs = true) (ht : l.tail = addrs.getLast?)
    (hn : n < addrs.length) :
    (push_after_n h l n v).1 = Res.ok () ∧
    (push_after_n h l n v).2.2 = l ∧
    (∃ a, addrs[n]? = some a ∧
      nodeNext (push_after_n h l n v).2.1 a = some h.length ∧
      nodeNext (push_after_n h l n v).2.1 h.length = addrs[n + 1]? ∧
      linkValue (push_after_n h l n v).2.1 (some h.length) = some v) ∧
    chain (push_after_n h l n v).2.1 l.head
      (addrs.take (n + 1) ++ h.length :: addrs.drop (n + 1)) = true ∧
    (n + 1 = addrs.length →
      l.tail = addrs[n]? ∧ (push_after_n h l n v).2.2.tail ≠ some h.length) := by
  have hgn : addrs[n]? = some addrs[n] := List.getElem?_eq_getElem hn
  have hitem : iterNthItem h l.head n = some (some addrs[n]) := by
    rw [iterNthItem_eq h addrs l.head n hc, hgn]
    rfl
  have hanlt : addrs[n] < h.length := chainSeg_mem_lt h hc addrs[n] (List.getElem_mem hn)
  have hanne : addrs[n] ≠ h.length := Nat.ne_of_lt hanlt
  have hnd : addrs.Nodup := chain_nodup hc
  have htake1 : addrs.take (n + 1) = addrs.take n ++ [addrs[n]] := by
    rw [List.take_succ, hgn]
    rfl
  obtain ⟨hseg1, hseg2⟩ := chain_take_drop h addrs l.head (n + 1) hc
  have hmid : chainSeg h l.head (addrs.take n ++ [addrs[n]]) addrs[n + 1]? = true := by
    rw [← htake1]
    exact hseg1
  obtain ⟨m, hm1, hm2⟩ :=
    (chainSeg_append_iff h (addrs.take n) [addrs[n]] l.head addrs[n + 1]?).mp hmid
  obtain ⟨hmeq, nd, hnode, hnext⟩ :=
    (chainSeg_singleton_iff h m addrs[n] addrs[n + 1]?).mp hm2
  have hchild : nodeNext h addrs[n] = addrs[n + 1]? := by
    simp [nodeNext, hnode, hnext]
  have hsplitnd : (addrs.take (n + 1) ++ addrs.drop (n + 1)).Nodup := by
    rw [List.take_append_drop]
    exact hnd
  have hdisj := (List.nodup_append.mp hsplitnd).2.2
  have hin_take : addrs[n] ∈ addrs.take (n + 1) := by
    rw [htake1]
    exact List.mem_append_right _ (List.mem_singleton.mpr rfl)
  have hnot_drop : addrs[n] ∉ addrs.drop (n + 1) := fun hmem => hdisj hin_take hmem
  have hnot_take : addrs[n] ∉ addrs.take n := by
    have hnd1 : (addrs.take (n + 1)).Nodup := (List.nodup_append.mp hsplitnd).1
    rw [htake1] at hnd1
    have hd2 := (List.nodup_append.mp hnd1).2.2
    intro hmem
    exact hd2 hmem (List.mem_singleton.mpr rfl)
  have hred : push_after_n h l n v =
      (Res.ok (), setNext (h ++ [⟨v, nodeNext h addrs[n]⟩]) addrs[n] (some h.length), l) := by
    simp [push_after_n, hitem, Node.new]
  rw [hred]
  have hnode1 : (h ++ [⟨v, nodeNext h addrs[n]⟩])[addrs[n]]? = some nd := by
    rw [List.getElem?_append_left hanlt]
    exact hnode
  have hnew : (setNext (h ++ [⟨v, nodeNext h addrs[n]⟩]) addrs[n] (some h.length))[h.length]? =
      some ⟨v, nodeNext h addrs[n]⟩ := by
    rw [getElem?_setNext_ne _ _ (Ne.symm hanne)]
    exact List.getElem?_concat_length h _
  refine ⟨rfl, rfl, ⟨addrs[n], hgn, ?_, ?_, ?_⟩, ?_, ?_⟩
  · rw [nodeNext_eq_of_getElem (getElem?_setNext_self (some h.length) hnode1)]
  · rw [nodeNext_eq_of_getElem hnew]
    exact hchild
  · simp [linkValue, hnew]
  · rw [chain_eq]
    refine (chainSeg_append_iff _ (addrs.take (n + 1)) (h.length :: addrs.drop (n + 1))
      l.head none).mpr ⟨some h.length, ?_, ?_⟩
    · rw [htake1]
      exact chainSeg_setNext_last (some h.length) hnot_take (chainSeg_append_heap _ hmid)
    · refine (chainSeg_cons_iff _ (some h.length) h.length (addrs.drop (n + 1)) none).mpr
        ⟨rfl, ⟨v, nodeNext h addrs[n]⟩, hnew, ?_⟩
      show chainSeg _ (nodeNext h addrs[n]) _ _ = true
      rw [hchild, chainSeg_setNext_of_notMem _ _ hnot_drop]
      exact chainSeg_append_heap _ hseg2
  · intro hlen
    have hlast : addrs.getLast? = addrs[n]? := by
      rw [List.getLast?_eq_getElem?]
      congr 1
      omega
    refine ⟨by rw [ht, hlast], ?_⟩
    rw [ht, hlast, hgn]
    intro hEq
    injection hEq with hEq
    exact hanne hEq

/-- Witness for C4 at a concrete input: inserting 30 after the last index
(1) of the chain `[0, 1]` holding `[10, 20]` succeeds, links node 2 after
node 1, and leaves `tail` referencing node 1, not the new node 2. -/
theorem C4_push_after_n_links_without_tail_update_witness :
    (push_after_n ([⟨10, some 1⟩, ⟨20, none⟩] : Heap Nat) ⟨some 0, some 1⟩ 1 30).1 =
      Res.ok () ∧
    (push_after_n ([⟨10, some 1⟩, ⟨20, none⟩] : Heap Nat) ⟨some 0, some 1⟩ 1 30).2.2 =
      (⟨some 0, some 1⟩ : LinkedList) ∧
    chain (push_after_n ([⟨10, some 1⟩, ⟨20, none⟩] : Heap Nat)
        ⟨some 0, some 1⟩ 1 30).2.1 (some 0) [0, 1, 2] = true ∧
    (⟨some 0, some 1⟩ : LinkedList).tail = some 1 ∧
    (push_after_n ([⟨10, some 1⟩, ⟨20, none⟩] : Heap Nat)
        ⟨some 0, some 1⟩ 1 30).2.2.tail ≠ some 2 := by
  have hmain := C4_push_after_n_links_without_tail_update [⟨10, some 1⟩, ⟨20, none⟩]
    ⟨some 0, some 1⟩ [0, 1] 1 30 (by decide) (by decide) (by decide)
  have hstale := hmain.2.2.2.2 (by decide)
  exact ⟨hmain.1, hmain.2.1, hmain.2.2.2.1, hstale.1, hstale.2⟩

/-- C8: for `1 ≤ n ≤ count`, `split_on_nth(n)` succeeds and partitions the
element sequence: iterating the left list yields exactly the first `n`
values of the original iteration, iterating the right list yields exactly
the remaining values, and their concatenation reconstructs the original
sequence (each element appearing exactly once); the left list keeps the
original `head` and the right list receives the original `tail`. -/
theorem C8_split_on_nth_partitions (h : Heap T) (l : LinkedList) (addrs : List Nat)
    (n : Nat) (hc : chain h l.head addrs = true) (h1 : 1 ≤ n) (h2 : n ≤ addrs.length) :
    ∃ left right, (split_on_nth h l n).1 = Res.ok (left, right) ∧
      left.head = l.head ∧ right.tail = l.tail ∧
      iterValues (split_on_nth h l n).2 left = (iterValues h l).take n ∧
      iterValues (split_on_nth h l n).2 right = (iterValues h l).drop n ∧
      iterValues (split_on_nth h l n).2 left ++ iterValues (split_on_nth h l n).2 right =
        iterValues h l := by
  have hn0 : ¬n = 0 := by omega
  have hn1 : n - 1 < addrs.length := by omega
  have hgn : addrs[n - 1]? = some addrs[n - 1] := List.getElem?_eq_getElem hn1
  have hitem : iterNthItem h l.head (n - 1) = some (some addrs[n - 1]) := by
    rw [iterNthItem_eq h addrs l.head (n - 1) hc, hgn]
    rfl
  obtain ⟨hseg1, hseg2⟩ := chain_take_drop h addrs l.head n hc
  have htake1 : addrs.take n = addrs.take (n - 1) ++ [addrs[n - 1]] := by
    conv_lhs => rw [show n = (n - 1) + 1 by omega]
    rw [List.take_succ, hgn]
    rfl
  have hmid : chainSeg h l.head (addrs.take (n - 1) ++ [addrs[n - 1]]) addrs[n]? = true := by
    rw [← htake1]
    exact hseg1
  obtain ⟨m, hm1, hm2⟩ :=
    (chainSeg_append_iff h (addrs.take (n - 1)) [addrs[n - 1]] l.head addrs[n]?).mp hmid
  obtain ⟨hmeq, nd, hnode, hnext⟩ :=
    (chainSeg_singleton_iff h m addrs[n - 1] addrs[n]?).mp hm2
  have hchild : nodeNext h addrs[n - 1] = addrs[n]? := by
    simp [nodeNext, hnode, hnext]
  have hred : split_on_nth h l n =
      (Res.ok (l, ⟨nodeNext h addrs[n - 1], l.tail⟩), setNext h addrs[n - 1] none) := by
    simp [split_on_nth, hn0, hitem]
  have hnd := chain_nodup hc
  have hsplitnd : (addrs.take n ++ addrs.drop n).Nodup := by
    rw [List.take_append_drop]
    exact hnd
  have hdisj := (List.nodup_append.mp hsplitnd).2.2
  have hin_take : addrs[n - 1] ∈ addrs.take n := by
    rw [htake1]
    exact List.mem_append_right _ (List.mem_singleton.mpr rfl)
  have hnot_drop : addrs[n - 1] ∉ addrs.drop n := fun hm => hdisj hin_take hm
  have hnot_take : addrs[n - 1] ∉ addrs.take (n - 1) := by
    have hnd1 : (addrs.take n).Nodup := (List.nodup_append.mp hsplitnd).1
    rw [htake1] at hnd1
    have hd2 := (List.nodup_append.mp hnd1).2.2
    intro hm
    exact hd2 hm (List.mem_singleton.mpr rfl)
  have hleft : chain (setNext h addrs[n - 1] none) l.head (addrs.take n) = true := by
    rw [chain_eq, htake1]
    exact chainSeg_setNext_last none hnot_take hmid
  have hright : chain (setNext h addrs[n - 1] none) addrs[n]? (addrs.drop n) = true := by
    rw [chain_eq, chainSeg_setNext_of_notMem _ _ hnot_drop]
    exact hseg2
  have hvorig : iterValues h l = valuesAt h addrs := iterValues_eq hc
  rw [hred, hchild]
  refine ⟨l, ⟨addrs[n]?, l.tail⟩, rfl, rfl, rfl, ?_, ?_, ?_⟩
  · rw [iterValues_eq hleft, valuesAt_setNext, hvorig, valuesAt, valuesAt, List.map_take]
  · rw [iterValues_eq (l := ⟨addrs[n]?, l.tail⟩) hright, valuesAt_setNext, hvorig,
      valuesAt, valuesAt, List.map_drop]
  · rw [iterValues_eq hleft, iterValues_eq (l := ⟨addrs[n]?, l.tail⟩) hright,
      valuesAt_setNext, valuesAt_setNext, hvorig, valuesAt, valuesAt, valuesAt,
      List.map_take, List.map_drop, List.take_append_drop]

/-- Witness for C8 at a concrete input: the five-node chain holding
`[1, 2, 3, 4, 5]` split at `n = 3` yields left iteration `[1, 2, 3]` and
right iteration `[4, 5]`, whose concatenation is the original sequence. -/
theorem C8_split_on_nth_partitions_witness :
    ∃ left right,
      (split_on_nth ([⟨1, some 1⟩, ⟨2, some 2⟩, ⟨3, some 3⟩, ⟨4, some 4⟩, ⟨5, none⟩] :
          Heap Nat) ⟨some 0, some 4⟩ 3).1 = Res.ok (left, right) ∧
      left.head = some 0 ∧ right.tail = some 4 ∧
      iterValues (split_on_nth ([⟨1, some 1⟩, ⟨2, some 2⟩, ⟨3, some 3⟩, ⟨4, some 4⟩,
          ⟨5, none⟩] : Heap Nat) ⟨some 0, some 4⟩ 3).2 left =
        [some 1, some 2, some 3] ∧
      iterValues (split_on_nth ([⟨1, some 1⟩, ⟨2, some 2⟩, ⟨3, some 3⟩, ⟨4, some 4⟩,
          ⟨5, none⟩] : Heap Nat) ⟨some 0, some 4⟩ 3).2 right = [some 4, some 5] := by
  have hmain := C8_split_on_nth_partitions
    [⟨1, some 1⟩, ⟨2, some 2⟩, ⟨3, some 3⟩, ⟨4, some 4⟩, ⟨5, none⟩]
    ⟨some 0, some 4⟩ [0, 1, 2, 3, 4] 3 (by decide) (by decide) (by decide)
  obtain ⟨left, right, hok, hhead, htail, htake, hdrop, _⟩ := hmain
  refine ⟨left, right, hok, hhead, htail, ?_, ?_⟩
  · rw [htake]
    decide
  · rw [hdrop]
    decide

end RustList
